import Mathlib

/-!
Verification of the lint-output analyzer (`analyze-lint.py`).

The source program scans the text produced by a lint command line by line,
tracks a "current file" context, extracts diagnostic records, and renders
two aggregate report views.  This file embeds the parser and the pure
(data-producing) parts of the two report functions as executable Lean
definitions over `List Char`, restricted to the ASCII fragment of Python's
character classes (all inputs relevant to the program are ASCII).
-/

/-- ASCII whitespace, the fragment of Python's `str.strip` / regex `\s`
character class exercised by the program. -/
def pyIsSpace (c : Char) : Bool :=
  c == ' ' || c == '\t' || c == '\n' || c == '\r' || c == '\x0b' || c == '\x0c'

/-- Python `line.startswith(' ')`: the first character is a space. -/
def startsWithSpace (l : List Char) : Bool :=
  match l with
  | [] => false
  | c :: _ => c == ' '

/-- Python `str.strip()`: remove leading and trailing whitespace. -/
def pyStrip (l : List Char) : List Char :=
  ((l.dropWhile pyIsSpace).reverse.dropWhile pyIsSpace).reverse

/-- List-of-characters version of Python `str.startswith` (general pattern). -/
def isPre : List Char → List Char → Bool
  | [], _ => true
  | _ :: _, [] => false
  | a :: p, b :: s => a == b && isPre p s

/-- Python substring test `p in s`: `p` occurs contiguously in `s`. -/
def isSub (p : List Char) : List Char → Bool
  | [] => p.isEmpty
  | c :: t => isPre p (c :: t) || isSub p t

/-- Python `output.split('\n')`: split at every newline, keeping empty pieces
(the empty string yields one empty piece). -/
def pySplitNl : List Char → List (List Char)
  | [] => [[]]
  | c :: t =>
    if c == '\n' then [] :: pySplitNl t
    else
      match pySplitNl t with
      | [] => [[c]]
      | h :: r => (c :: h) :: r

/-- Accumulator worker for Python `str.split()` with no argument. -/
def splitWsAux : List Char → List Char → List (List Char)
  | [], acc => if acc.isEmpty then [] else [acc.reverse]
  | c :: t, acc =>
    if pyIsSpace c then
      if acc.isEmpty then splitWsAux t [] else acc.reverse :: splitWsAux t []
    else splitWsAux t (c :: acc)

/-- Python `str.split()` with no argument: whitespace-delimited tokens,
empty pieces discarded. -/
def pySplitWs (s : List Char) : List (List Char) :=
  splitWsAux s []

/-- Python `int` on a decimal digit string. -/
def digitsToNat (l : List Char) : Nat :=
  l.foldl (fun a c => 10 * a + (c.toNat - 48)) 0

/-- The hard-coded project-path filter substring of the source
(`/Volumes/samsung_t9/projects/raycast-cyrup/rio-launcher/`). -/
def filterChars : List Char :=
  ("/Volumes/samsung_t9/projects/raycast-cyrup/rio-launcher/").data

/-- The extension marker `.ts` tested by the file-header condition. -/
def tsChars : List Char := (".ts").data

/-- The extension marker `.tsx` tested by the file-header condition. -/
def tsxChars : List Char := (".tsx").data

/-- The severity literal `error`. -/
def errLit : List Char := ("error").data

/-- The severity literal `warning`. -/
def warnLit : List Char := ("warning").data

/-- One parsed diagnostic.  The source keeps the tuple
`(line_num, error_text, severity)`; this structure retains all five regex
groups (the column as the raw digit string, exactly as `match.group(2)` is
kept), and `errText` below rebuilds the `error_text` field verbatim. -/
structure DiagnosticRecord where
  line : Nat
  col : List Char
  severity : List Char
  message : List Char
  rule : List Char
deriving DecidableEq, Repr

/-- Default record used only as a `headD`-style fallback in statements. -/
def rec0 : DiagnosticRecord :=
  { line := 0, col := [], severity := [], message := [], rule := [] }

/-- The rendered diagnostic string
`f"{line_num}:{col_num} {severity} {message} {rule}"` of the source. -/
def errText (r : DiagnosticRecord) : List Char :=
  Nat.toDigits 10 r.line ++ [':'] ++ r.col ++ [' '] ++ r.severity ++ [' ']
    ++ r.message ++ [' '] ++ r.rule

/-- The stored tuple `(line_num, error_text, severity)` appended by the
source for each matched line. -/
def storedTuple (r : DiagnosticRecord) : Nat × List Char × List Char :=
  (r.line, errText r, r.severity)

/-- The file-header test of the source, with Python operator precedence:
`line.strip() and not line.startswith(' ') and '.ts' in line or '.tsx' in line`
parses as `(strip ∧ ¬startswith ∧ '.ts' ∈ line) ∨ ('.tsx' ∈ line)`. -/
def headerCond (line : List Char) : Bool :=
  !(pyStrip line).isEmpty && !startsWithSpace line && isSub tsChars line
    || isSub tsxChars line

/-- Shared head of the two diagnostic regexes:
`^\s+(\d+):(\d+)\s+(error|warning)` — one or more whitespace, a digit group,
a colon, a digit group, whitespace, then the literal `error` (tried first,
as in the alternation) or `warning`.  Returns the two digit groups, the
matched severity literal, and the rest of the line after it.  Each `\s+` /
`\d+` is maximal-munch, which coincides with the regex because the
neighbouring character classes are disjoint, so backtracking to a shorter
match can never succeed. -/
def matchDiagHead (line : List Char) : Option (List Char × List Char × List Char × List Char) :=
  let w1 := line.takeWhile pyIsSpace
  let r1 := line.dropWhile pyIsSpace
  if w1.isEmpty then none else
  let d1 := r1.takeWhile Char.isDigit
  let r2 := r1.dropWhile Char.isDigit
  if d1.isEmpty then none else
  match r2 with
  | ':' :: r3 =>
    let d2 := r3.takeWhile Char.isDigit
    let r4 := r3.dropWhile Char.isDigit
    if d2.isEmpty then none else
    let w2 := r4.takeWhile pyIsSpace
    let r5 := r4.dropWhile pyIsSpace
    if w2.isEmpty then none else
    if isPre errLit r5 then some (d1, d2, errLit, r5.drop 5)
    else if isPre warnLit r5 then some (d1, d2, warnLit, r5.drop 7)
    else none
  | _ => none

/-- The guard regex `re.match(r'^\s+\d+:\d+\s+(error|warning)', line)`:
a prefix match, anything may follow the severity token. -/
def diagPattern1 (line : List Char) : Bool :=
  (matchDiagHead line).isSome

/-- The capturing regex
`^\s+(\d+):(\d+)\s+(error|warning)\s+(.+?)\s+(@?\S+)$`.
After the severity token the engine behaves as follows on the remaining
suffix: the greedy `\s+` always takes the whole leading whitespace run
(shortening it would force `.` — via the lazy group growing leftward — to
start on whitespace only when no match exists at all); the lazy `(.+?)`
stops at the earliest position from which `\s+(@?\S+)$` completes, which is
the start of the LAST whitespace run of the suffix (everything after that
run is non-whitespace to the end); `@?\S+` then consumes the whole trailing
token (`@` itself being non-whitespace, the optional `@` never changes the
captured text).  Hence, when the tail after the leading whitespace run
contains further whitespace: message = the piece strictly between the
leading whitespace run and the last whitespace run, rule = the trailing
whitespace-free token; a newline inside the message region makes the regex
fail, since `.` does not match one and every alternative split needs the
lazy group to cross it.  When that tail is one single whitespace-free
token, the engine instead backtracks the first `\s+` and places the lazy
group on one whitespace character inside the run itself (checked against
CPython: `'  1:2  error   a'` matches with groups `(' ', 'a')`), which
needs a run of length at least 3 with a non-newline character at one of
the interior positions 1..len-2; the message group is then a single
whitespace character, so the stored `match.group(4).strip()` is empty.
This model is exact for newline-free lines — every line handed over by
`output.split('\n')` — and deviates from CPython only on strings that
contain `'\n'` where `$` may also match before a trailing newline. -/
def diagMatch (line : List Char) : Option DiagnosticRecord :=
  match matchDiagHead line with
  | none => none
  | some (d1, d2, sev, rest) =>
    let w := rest.takeWhile pyIsSpace
    let t := rest.dropWhile pyIsSpace
    if w.isEmpty then none else
    let revT := t.reverse
    let rulR := revT.takeWhile (fun c => !pyIsSpace c)
    let rest2 := revT.dropWhile (fun c => !pyIsSpace c)
    if rulR.isEmpty then none else
    match rest2 with
    | [] =>
      if 3 ≤ w.length
          && ((w.drop 1).take (w.length - 2)).any (fun c => !(c == '\n')) then
        some { line := digitsToNat d1, col := d2, severity := sev,
               message := [], rule := rulR.reverse }
      else none
    | _ :: _ =>
      let wsR := rest2.takeWhile pyIsSpace
      let msgR := rest2.dropWhile pyIsSpace
      if wsR.isEmpty || msgR.isEmpty then none else
      if msgR.any (fun c => c == '\n') then none else
      some { line := digitsToNat d1, col := d2, severity := sev,
             message := pyStrip msgR.reverse, rule := rulR.reverse }

/-- Parser state: the `current_file` pointer and the insertion-ordered
`errors_by_file` mapping (Python's `defaultdict` preserves insertion
order, modelled as an association list). -/
structure ParseState where
  currentFile : Option (List Char)
  errorsByFile : List (List Char × List DiagnosticRecord)
deriving DecidableEq, Repr

/-- Initial parser state: `current_file = None`, empty mapping. -/
def initState : ParseState :=
  { currentFile := none, errorsByFile := [] }

/-- `errors_by_file[k].append(r)` on an insertion-ordered mapping: extend
the existing entry, or create a new entry at the end. -/
def addRecord (m : List (List Char × List DiagnosticRecord)) (k : List Char)
    (r : DiagnosticRecord) : List (List Char × List DiagnosticRecord) :=
  match m with
  | [] => [(k, [r])]
  | (k2, rs) :: t =>
    if k2 = k then (k2, rs ++ [r]) :: t else (k2, rs) :: addRecord t k r

/-- The body of the per-line loop of `parse_lint_output`: first the
file-header branch (updating `current_file` only when the project-path
filter occurs in the line), `elif` the diagnostic branch (guarded by
`current_file`, a non-blank line and the guard regex; a line failing the
capturing regex is silently skipped). -/
def processLine (st : ParseState) (line : List Char) : ParseState :=
  if headerCond line then
    if isSub filterChars line then { st with currentFile := some (pyStrip line) }
    else st
  else
    match st.currentFile with
    | some cf =>
      if !(pyStrip line).isEmpty && diagPattern1 line then
        match diagMatch line with
        | some r => { st with errorsByFile := addRecord st.errorsByFile cf r }
        | none => st
      else st
    | none => st

/-- The state after `parse_lint_output` has folded over all lines. -/
def parseFold (out : String) : ParseState :=
  (pySplitNl out.data).foldl processLine initState

/-- `parse_lint_output`: the mapping from file path to its ordered list of
diagnostic records. -/
def parse_lint_output (out : String) : List (List Char × List DiagnosticRecord) :=
  (parseFold out).errorsByFile

/-- `sum(1 for _, _, severity in errors if severity == 'error')`, shared by
both report views. -/
def error_count (errors : List DiagnosticRecord) : Nat :=
  errors.countP (fun r => r.severity == errLit)

/-- `sum(1 for _, _, severity in errors if severity == 'warning')`. -/
def warning_count (errors : List DiagnosticRecord) : Nat :=
  errors.countP (fun r => r.severity == warnLit)

/-- Fuel-driven worker for `replaceAll` (structural recursion so that the
kernel can evaluate it; the fuel, initialised to the string length, never
runs out because each step consumes at least one character when the
pattern is non-empty). -/
def replaceAllAux (pat rep : List Char) : Nat → List Char → List Char
  | _, [] => []
  | 0, s => s
  | fuel + 1, c :: t =>
    if !pat.isEmpty && isPre pat (c :: t) then
      rep ++ replaceAllAux pat rep fuel ((c :: t).drop pat.length)
    else c :: replaceAllAux pat rep fuel t

/-- Python `s.replace(pat, rep)` for a non-empty `pat`: left-to-right,
non-overlapping replacement of every occurrence. -/
def replaceAll (pat rep s : List Char) : List Char :=
  replaceAllAux pat rep s.length s

/-- `file_path.replace('/Volumes/samsung_t9/projects/raycast-cyrup/rio-launcher/', '')`. -/
def display_path (fp : List Char) : List Char :=
  replaceAll filterChars [] fp

/-- Insert `x` before the first element `y` with `le x y = true`. -/
def insertLe (le : α → α → Bool) (x : α) : List α → List α
  | [] => [x]
  | y :: t => if le x y then x :: y :: t else y :: insertLe le x t

/-- Stable insertion sort.  Python's `sorted` / `list.sort` are stable
sorts, and the output of a stable sort is uniquely determined by the
comparison, so this computes exactly the lists the source builds (a
structural recursion is used so that the kernel can evaluate it). -/
def insSort (le : α → α → Bool) : List α → List α
  | [] => []
  | x :: t => insertLe le x (insSort le t)

/-- A rule-to-count histogram in insertion order (`defaultdict(int)`). -/
abbrev Histo := List (List Char × Nat)

/-- `categories[rule] += 1` on an insertion-ordered histogram. -/
def bump (m : Histo) (k : List Char) : Histo :=
  match m with
  | [] => [(k, 1)]
  | (k2, n) :: t => if k2 = k then (k2, n + 1) :: t else (k2, n) :: bump t k

/-- One iteration of the category loop of `print_summary`:
`parts = error_text.split()`, and when `parts` is non-empty the last part
is taken as the rule key. -/
def categoriesStep (m : Histo) (r : DiagnosticRecord) : Histo :=
  match pySplitWs (errText r) with
  | [] => m
  | ps => bump m (ps.getLastD [])

/-- The rule histogram of one file, derived from the rendered text as the
source does. -/
def categoriesOf (errors : List DiagnosticRecord) : Histo :=
  errors.foldl categoriesStep []

/-- Modelled from the spec for the refinement comparison of claim C8: the
histogram keyed directly on the already-known `rule` field of each record,
rather than re-derived from the rendered text. -/
def ruleFieldHistogram (errors : List DiagnosticRecord) : Histo :=
  errors.foldl (fun m r => bump m r.rule) []

/-- Total occurrence count held by a histogram (or a slice of one). -/
def sumCounts (m : Histo) : Nat :=
  (m.map Prod.snd).sum

/-- `sorted(categories.items(), key=lambda x: x[1], reverse=True)` —
stable descending sort by count. -/
def sortedCategories (cats : Histo) : Histo :=
  insSort (fun a b => decide (b.2 ≤ a.2)) cats

/-- The `... and N more rules` line of `print_summary`: emitted exactly
when more than 10 sorted categories exist, reporting the number of
collapsed rule kinds and the sum of their occurrence counts. -/
def moreRulesLine (cats : Histo) : Option (Nat × Nat) :=
  if 10 < (sortedCategories cats).length then
    some ((sortedCategories cats).length - 10, sumCounts ((sortedCategories cats).drop 10))
  else none

/-- One entry of `file_summaries` in `print_summary`. -/
structure FileSummary where
  displayPath : List Char
  errors : Nat
  warnings : Nat
  total : Nat
  categories : Histo
deriving DecidableEq, Repr

/-- Build the summary tuple of one file, exactly as the loop body of
`print_summary` does. -/
def mkFileSummary (p : List Char × List DiagnosticRecord) : FileSummary :=
  { displayPath := display_path p.1
  , errors := error_count p.2
  , warnings := warning_count p.2
  , total := p.2.length
  , categories := categoriesOf p.2 }

/-- `file_summaries` after `file_summaries.sort(key=lambda x: x[3],
reverse=True)` — built in mapping order, then stably sorted by total,
descending. -/
def fileSummaries (m : List (List Char × List DiagnosticRecord)) : List FileSummary :=
  insSort (fun a b => decide (b.total ≤ a.total)) (m.map mkFileSummary)

/-- The running `(total_errors, total_warnings)` accumulation of
`print_summary`, folded over the mapping in its iteration order. -/
def summary_totals (m : List (List Char × List DiagnosticRecord)) : Nat × Nat :=
  m.foldl (fun acc p => (acc.1 + error_count p.2, acc.2 + warning_count p.2)) (0, 0)

/-- `sorted(errors_by_file.items(), key=lambda x: len(x[1]), reverse=True)`
of `print_detailed_output`. -/
def sortedFiles (m : List (List Char × List DiagnosticRecord)) :
    List (List Char × List DiagnosticRecord) :=
  insSort (fun a b => decide (b.2.length ≤ a.2.length)) m

/-- `sorted(errors, key=lambda x: x[0])` of `print_detailed_output` —
stable ascending sort by line number. -/
def sortedErrors (errors : List DiagnosticRecord) : List DiagnosticRecord :=
  insSort (fun a b => decide (a.line ≤ b.line)) errors

/-- What `main` does after parsing: the `if not errors_by_file` branch
prints the no-errors message and returns without any aggregation;
otherwise the summary (and detailed) views are rendered. -/
inductive MainOutcome where
  | noErrorsMessage : MainOutcome
  | reports : List FileSummary → MainOutcome
deriving DecidableEq, Repr

/-- The branch decision of `main` on the parsed mapping. -/
def main_outcome (m : List (List Char × List DiagnosticRecord)) : MainOutcome :=
  if m.isEmpty then MainOutcome.noErrorsMessage else MainOutcome.reports (fileSummaries m)

/-- Facts the parser guarantees about every record it constructs (used as
the induction invariant): the severity is one of the two literals, the
rule token is a non-empty whitespace-free string, and the column group is
a non-empty digit string. -/
def GoodRec (r : DiagnosticRecord) : Prop :=
  (r.severity = errLit ∨ r.severity = warnLit) ∧
  r.rule ≠ [] ∧ (∀ c ∈ r.rule, pyIsSpace c = false) ∧
  r.col ≠ [] ∧ (∀ c ∈ r.col, c.isDigit = true)

/-- `k` is the trimmed content of some line of `L` that passed both the
file-header test and the project-path filter test. -/
def KeyFromHeader (L : List (List Char)) (k : List Char) : Prop :=
  ∃ l ∈ L, headerCond l = true ∧ isSub filterChars l = true ∧ k = pyStrip l

/-- Invariant of the parser state after processing the lines `L`: the
current file (when set) and every key of the mapping came from a matched
in-project header line of `L`, every key holds a non-empty record list,
and every record satisfies `GoodRec`. -/
def InvState (L : List (List Char)) (st : ParseState) : Prop :=
  (∀ k, st.currentFile = some k → KeyFromHeader L k) ∧
  (∀ p ∈ st.errorsByFile, KeyFromHeader L p.1 ∧ p.2 ≠ [] ∧ ∀ r ∈ p.2, GoodRec r)

/-- An in-project file-header line used by the concrete test inputs. -/
def projHeaderLine : String :=
  "/Volumes/samsung_t9/projects/raycast-cyrup/rio-launcher/src/index.ts"

/-- Concrete input: an in-project header followed by one error line and
one warning line. -/
def sampleText : String :=
  projHeaderLine ++ "\n  12:34  error    Something bad    some-rule\n  3:4  warning  Stay alert  rule-two"

/-- Concrete input for claim C4: the header and exactly the diagnostic
line quoted by the claim. -/
def sampleC4 : String :=
  projHeaderLine ++ "\n  12:34  error    Something bad    some-rule"

/-- The record claim C4 expects for its diagnostic line. -/
def c4rec : DiagnosticRecord :=
  { line := 12, col := ("34").data, severity := errLit
  , message := ("Something bad").data, rule := ("some-rule").data }

/-- A well-formed diagnostic line whose message happens to mention a
`.tsx` file name (exercises the header-test precedence slip). -/
def c1diagLine : List Char :=
  ("  1:2  error  Fix App.tsx import  rule-x").data

/-- Concrete input for claim C1: an in-project header followed by
`c1diagLine`. -/
def sampleC1 : String :=
  projHeaderLine ++ "\n  1:2  error  Fix App.tsx import  rule-x"

/-- An indented line containing `.tsx` (exercises the header-test
precedence slip for claim C2). -/
def c2line : List Char := ("  a.tsx").data

/-- Concrete input for claim C5: a diagnostic at position `0:0`. -/
def sampleC5 : String :=
  projHeaderLine ++ "\n  0:0  error  bad thing  rule-z"

/-- A file-header line outside the project filter. -/
def otherHeaderLine : List Char := ("/other/path/b.ts").data

/-- A parser state whose current file is already set (witness input). -/
def stOut : ParseState :=
  { currentFile := some projHeaderLine.data, errorsByFile := [] }

/-- The empty input text. -/
def sampleEmpty : String := ""

/-- Fallback pair for `headD` in closed statements. -/
def dfltPair : List Char × List DiagnosticRecord := ([], [])

/-- Characterisation of `isPre`: a prefix occurrence. -/
theorem isPre_iff : ∀ (p s : List Char), isPre p s = true ↔ ∃ v, s = p ++ v
  | [], s => by simp [isPre]
  | a :: p, [] => by simp [isPre]
  | a :: p, b :: s => by
    simp only [isPre, Bool.and_eq_true, beq_iff_eq, isPre_iff p s,
      List.cons_append, List.cons.injEq]
    constructor
    · rintro ⟨rfl, v, rfl⟩
      exact ⟨v, rfl, rfl⟩
    · rintro ⟨v, rfl, rfl⟩
      exact ⟨rfl, v, rfl⟩

/-- Characterisation of `isSub`: a contiguous occurrence. -/
theorem isSub_iff : ∀ (p s : List Char), isSub p s = true ↔ ∃ u v, s = u ++ p ++ v
  | p, [] => by
    constructor
    · intro h
      have hp : p = [] := by
        cases p with
        | nil => rfl
        | cons a t => simp [isSub, List.isEmpty] at h
      exact ⟨[], [], by simp [hp]⟩
    · rintro ⟨u, v, hv⟩
      have h2 := hv.symm
      simp only [List.append_eq_nil] at h2
      simp [isSub, h2.1.2, List.isEmpty]
  | p, c :: t => by
    simp only [isSub, Bool.or_eq_true, isPre_iff, isSub_iff p t]
    constructor
    · rintro (⟨v, hv⟩ | ⟨u, v, hv⟩)
      · exact ⟨[], v, by simp [hv]⟩
      · exact ⟨c :: u, v, by simp [hv]⟩
    · rintro ⟨u, v, hv⟩
      cases u with
      | nil => exact Or.inl ⟨v, by simpa using hv⟩
      | cons c2 u =>
        simp only [List.cons_append, List.cons.injEq] at hv
        exact Or.inr ⟨u, v, hv.2⟩

/-- Dropping while a predicate holds never crosses an anchor character on
which the predicate fails. -/
theorem dropWhile_anchor (q : Char → Bool) (a : Char) (ha : q a = false) :
    ∀ (u w : List Char), ∃ u1, List.dropWhile q (u ++ a :: w) = u1 ++ a :: w
  | [], w => ⟨[], by simp [List.dropWhile_cons, ha]⟩
  | c :: u, w => by
    rcases hqc : q c with _ | _
    · exact ⟨c :: u, by simp [List.dropWhile_cons, hqc]⟩
    · obtain ⟨u1, h1⟩ := dropWhile_anchor q a ha u w
      exact ⟨u1, by simp [List.dropWhile_cons, hqc, h1]⟩

/-- Stripping surrounding whitespace preserves any whitespace-free
non-empty substring occurrence. -/
theorem isSub_pyStrip (p s : List Char) (hp : p ≠ [])
    (hw : ∀ c ∈ p, pyIsSpace c = false) (h : isSub p s = true) :
    isSub p (pyStrip s) = true := by
  obtain ⟨u, v, rfl⟩ := (isSub_iff p s).mp h
  obtain ⟨a, p2, rfl⟩ := List.exists_cons_of_ne_nil hp
  have ha : pyIsSpace a = false := hw a (List.mem_cons_self a p2)
  obtain ⟨u1, h1⟩ := dropWhile_anchor pyIsSpace a ha u (p2 ++ v)
  have e1 : List.dropWhile pyIsSpace (u ++ (a :: p2) ++ v) = u1 ++ (a :: p2) ++ v := by
    have e0 : u ++ (a :: p2) ++ v = u ++ a :: (p2 ++ v) := by simp
    rw [e0, h1]
    simp
  have hpr : (a :: p2).reverse ≠ [] := by simp
  obtain ⟨b, q, hbq⟩ := List.exists_cons_of_ne_nil hpr
  have hb : pyIsSpace b = false := by
    have hmem : b ∈ (a :: p2).reverse := hbq ▸ List.mem_cons_self b q
    exact hw b (List.mem_reverse.mp hmem)
  obtain ⟨u2, h2⟩ := dropWhile_anchor pyIsSpace b hb v.reverse (q ++ u1.reverse)
  have e3 : pyStrip (u ++ (a :: p2) ++ v) = u1 ++ (a :: p2) ++ u2.reverse := by
    unfold pyStrip
    rw [e1]
    have e2 : (u1 ++ (a :: p2) ++ v).reverse = v.reverse ++ b :: (q ++ u1.reverse) := by
      have := congrArg List.reverse hbq
      simp only [List.reverse_append]
      rw [hbq]
      simp
    rw [e2, h2]
    have hq : q.reverse ++ [b] = a :: p2 := by
      have hc := congrArg List.reverse hbq
      simpa using hc.symm
    simp only [List.reverse_append, List.reverse_cons, List.reverse_reverse]
    rw [List.append_assoc u1 q.reverse, hq]
  rw [e3]
  exact (isSub_iff _ _).mpr ⟨u1, u2.reverse, rfl⟩

/-- The project-path filter is a non-empty string. -/
theorem filterChars_ne_nil : filterChars ≠ [] := by decide

/-- The project-path filter contains no whitespace. -/
theorem filterChars_nonspace : ∀ c ∈ filterChars, pyIsSpace c = false := by decide

/-- C1 (code bug evidence): the line `  1:2  error  Fix App.tsx import  rule-x`
matches the diagnostic pattern and decomposes into a message and a rule,
and it follows an in-project file-header line, yet the parser produces an
empty mapping: because the line contains `.tsx`, the Python operator
precedence of the header test routes it to the file-header branch and the
`elif` diagnostic branch is never reached, so no record is appended. -/
theorem claim_C1 :
    headerCond c1diagLine = true ∧ diagPattern1 c1diagLine = true ∧
    diagMatch c1diagLine =
      some { line := 1, col := ("2").data, severity := errLit
           , message := ("Fix App.tsx import").data, rule := ("rule-x").data } ∧
    pySplitNl sampleC1.data = [projHeaderLine.data, c1diagLine] ∧
    parse_lint_output sampleC1 = [] := by
  decide

/-- C2 (code bug evidence): the line `  a.tsx` begins with whitespace, yet
the source classifies it as a file-header line, because
`line.strip() and not line.startswith(' ') and '.ts' in line or '.tsx' in line`
parses as `(... and ... and ...) or ('.tsx' in line)` rather than the
documented `... and ('.ts' in line or '.tsx' in line)`. -/
theorem claim_C2 :
    headerCond c2line = true ∧ startsWithSpace c2line = true := by
  decide

/-- Processing one line either keeps the current file or sets it to the
trimmed line; it never clears it. -/
theorem processLine_currentFile (st : ParseState) (line : List Char) :
    (processLine st line).currentFile = st.currentFile ∨
    (processLine st line).currentFile = some (pyStrip line) := by
  unfold processLine
  split
  · split
    · exact Or.inr rfl
    · exact Or.inl rfl
  · split
    · split
      · split
        · exact Or.inl rfl
        · exact Or.inl rfl
      · exact Or.inl rfl
    · exact Or.inl rfl

/-- C3: a file-header line that does not contain the project-path filter
leaves the whole parser state unchanged, and once the current file is set
no line ever clears it, so subsequent diagnostic lines are still
attributed to the most recently matched in-project file. -/
theorem claim_C3 :
    (∀ (st : ParseState) (line : List Char), headerCond line = true →
      isSub filterChars line = false → processLine st line = st) ∧
    (∀ (st : ParseState) (line k : List Char), st.currentFile = some k →
      ∃ k2, (processLine st line).currentFile = some k2) := by
  constructor
  · intro st line h1 h2
    simp [processLine, h1, h2]
  · intro st line k hk
    rcases processLine_currentFile st line with h | h
    · exact ⟨k, h.trans hk⟩
    · exact ⟨pyStrip line, h⟩

/-- C3 witness: concrete instantiation at a set current file and the
out-of-project header `/other/path/b.ts`. -/
theorem claim_C3_witness :
    processLine stOut otherHeaderLine = stOut ∧
    ∃ k2, (processLine stOut otherHeaderLine).currentFile = some k2 :=
  ⟨claim_C3.1 stOut otherHeaderLine (by decide) (by decide),
   claim_C3.2 stOut otherHeaderLine projHeaderLine.data rfl⟩

/-- C4: on the input consisting of an in-project header followed by the
line `  12:34  error    Something bad    some-rule`, the parser produces
exactly one record with line 12, column 34, severity `error`, message
`Something bad` and rule `some-rule`, rendered as
`12:34 error Something bad some-rule`. -/
theorem claim_C4 :
    parse_lint_output sampleC4 = [(projHeaderLine.data, [c4rec])] ∧
    errText c4rec = ("12:34 error Something bad some-rule").data ∧
    digitsToNat c4rec.col = 34 := by
  decide

/-- C5 counterexample: on a concrete input containing the diagnostic line
`  0:0  error  bad thing  rule-z` the parser produces a record whose line
number is 0 and whose column value is 0, so the data-model constraint
`line ≥ 1 ∧ column ≥ 1` fails on parser output. -/
theorem claim_C5_counterexample :
    ¬ (∀ p ∈ parse_lint_output sampleC5, ∀ r ∈ p.2,
        1 ≤ r.line ∧ 1 ≤ digitsToNat r.col) := by
  decide

/-- A successful head match yields one of the two severity literals and a
non-empty digit string as the column group. -/
theorem matchDiagHead_props (line d1 d2 sev rest : List Char)
    (h : matchDiagHead line = some (d1, d2, sev, rest)) :
    (sev = errLit ∨ sev = warnLit) ∧ d2 ≠ [] ∧ ∀ c ∈ d2, c.isDigit = true := by
  unfold matchDiagHead at h
  simp only [] at h
  split at h
  · exact absurd h (by simp)
  split at h
  · exact absurd h (by simp)
  split at h
  case _ r3 =>
    split at h
    · exact absurd h (by simp)
    rename_i hd2
    split at h
    · exact absurd h (by simp)
    split at h
    · rw [Option.some.injEq, Prod.mk.injEq, Prod.mk.injEq, Prod.mk.injEq] at h
      obtain ⟨h1, h2, h3, h4⟩ := h
      subst h2
      subst h3
      refine ⟨Or.inl rfl, ?_, fun c hc => List.mem_takeWhile_imp hc⟩
      intro hnil
      rw [hnil] at hd2
      exact hd2 rfl
    split at h
    · rw [Option.some.injEq, Prod.mk.injEq, Prod.mk.injEq, Prod.mk.injEq] at h
      obtain ⟨h1, h2, h3, h4⟩ := h
      subst h2
      subst h3
      refine ⟨Or.inr rfl, ?_, fun c hc => List.mem_takeWhile_imp hc⟩
      intro hnil
      rw [hnil] at hd2
      exact hd2 rfl
    · exact absurd h (by simp)
  case _ =>
    exact absurd h (by simp)

/-- Every record produced by the capturing regex satisfies `GoodRec`. -/
theorem diagMatch_good (line : List Char) (r : DiagnosticRecord)
    (h : diagMatch line = some r) : GoodRec r := by
  unfold diagMatch at h
  split at h
  · exact absurd h (by simp)
  case _ d1 d2 sev rest heq =>
    obtain ⟨hsev, hd2, hdig⟩ := matchDiagHead_props line d1 d2 sev rest heq
    simp only [] at h
    split at h
    · exact absurd h (by simp)
    split at h
    · exact absurd h (by simp)
    rename_i hrul
    split at h
    · split at h
      · rw [Option.some.injEq] at h
        subst h
        refine ⟨hsev, ?_, ?_, hd2, hdig⟩
        · simp only [ne_eq, List.reverse_eq_nil_iff]
          intro hnil
          rw [hnil] at hrul
          exact hrul rfl
        · intro c hc
          rw [List.mem_reverse] at hc
          have hm := List.mem_takeWhile_imp hc
          simpa using hm
      · exact absurd h (by simp)
    · split at h
      · exact absurd h (by simp)
      split at h
      · exact absurd h (by simp)
      rw [Option.some.injEq] at h
      subst h
      refine ⟨hsev, ?_, ?_, hd2, hdig⟩
      · simp only [ne_eq, List.reverse_eq_nil_iff]
        intro hnil
        rw [hnil] at hrul
        exact hrul rfl
      · intro c hc
        rw [List.mem_reverse] at hc
        have hm := List.mem_takeWhile_imp hc
        simpa using hm

/-- `addRecord` preserves a per-entry property when the new key and record
satisfy it. -/
theorem addRecord_inv (P : List Char → Prop) (G : DiagnosticRecord → Prop)
    (m : List (List Char × List DiagnosticRecord)) (k : List Char) (r : DiagnosticRecord)
    (hm : ∀ p ∈ m, P p.1 ∧ p.2 ≠ [] ∧ ∀ x ∈ p.2, G x) (hk : P k) (hr : G r) :
    ∀ p ∈ addRecord m k r, P p.1 ∧ p.2 ≠ [] ∧ ∀ x ∈ p.2, G x := by
  induction m with
  | nil =>
    intro p hp
    simp only [addRecord, List.mem_singleton] at hp
    subst hp
    refine ⟨hk, by simp, ?_⟩
    intro x hx
    simp only [List.mem_singleton] at hx
    subst hx
    exact hr
  | cons q t ih =>
    intro p hp
    obtain ⟨k2, rs⟩ := q
    simp only [addRecord] at hp
    split at hp
    · rcases List.mem_cons.mp hp with hp1 | hp2
      · subst hp1
        have hq := hm (k2, rs) (List.mem_cons_self _ _)
        refine ⟨hq.1, by simp, ?_⟩
        intro x hx
        rcases List.mem_append.mp hx with h1 | h2
        · exact hq.2.2 x h1
        · simp only [List.mem_singleton] at h2
          subst h2
          exact hr
      · exact hm p (List.mem_cons_of_mem _ hp2)
    · rcases List.mem_cons.mp hp with hp1 | hp2
      · subst hp1
        exact hm (k2, rs) (List.mem_cons_self _ _)
      · exact ih (fun q hq => hm q (List.mem_cons_of_mem _ hq)) p hp2

/-- One parsing step preserves the state invariant, extending the set of
seen lines by the processed line. -/
theorem processLine_inv (L : List (List Char)) (st : ParseState) (line : List Char)
    (h : InvState L st) : InvState (L ++ [line]) (processLine st line) := by
  have mono : ∀ k, KeyFromHeader L k → KeyFromHeader (L ++ [line]) k := by
    rintro k ⟨l, hl, h1, h2, h3⟩
    exact ⟨l, List.mem_append_left _ hl, h1, h2, h3⟩
  obtain ⟨hcf, hmap⟩ := h
  have keep : InvState (L ++ [line]) st :=
    ⟨fun k hk => mono k (hcf k hk),
     fun p hp => ⟨mono _ (hmap p hp).1, (hmap p hp).2.1, (hmap p hp).2.2⟩⟩
  unfold processLine
  split
  case _ hhc =>
    split
    case _ hfil =>
      refine ⟨?_, ?_⟩
      · intro k hk
        simp only [Option.some.injEq] at hk
        subst hk
        exact ⟨line, List.mem_append_right _ (by simp), hhc, hfil, rfl⟩
      · intro p hp
        have hq := hmap p hp
        exact ⟨mono _ hq.1, hq.2.1, hq.2.2⟩
    case _ =>
      exact keep
  case _ =>
    split
    case _ cf hcfeq =>
      split
      · split
        case _ rr hdm =>
          refine ⟨?_, ?_⟩
          · intro k hk
            exact mono k (hcf k hk)
          · exact addRecord_inv (KeyFromHeader (L ++ [line])) GoodRec
              st.errorsByFile cf rr
              (fun p hp => ⟨mono _ (hmap p hp).1, (hmap p hp).2.1, (hmap p hp).2.2⟩)
              (mono cf (hcf cf hcfeq))
              (diagMatch_good line rr hdm)
        case _ =>
          exact keep
      · exact keep
    case _ =>
      exact keep

/-- Folding the parser over further lines preserves the invariant. -/
theorem foldl_inv : ∀ (ls L : List (List Char)) (st : ParseState),
    InvState L st → InvState (L ++ ls) (ls.foldl processLine st) := by
  intro ls
  induction ls with
  | nil =>
    intro L st h
    simpa using h
  | cons l t ih =>
    intro L st h
    have h2 := ih (L ++ [l]) (processLine st l) (processLine_inv L st l h)
    rw [List.append_assoc] at h2
    simpa using h2

/-- The parser state after `parse_lint_output` satisfies the invariant
with respect to the lines of the input. -/
theorem parse_inv (out : String) : InvState (pySplitNl out.data) (parseFold out) := by
  have h0 : InvState [] initState := by
    constructor
    · intro k hk
      simp [initState] at hk
    · intro p hp
      simp [initState] at hp
  have hf := foldl_inv (pySplitNl out.data) [] initState h0
  simpa [parseFold] using hf

/-- C10: every key of the parser's output mapping contains the
project-path filter substring and is the trimmed content of a header line
of the input, and every key maps to a non-empty record list. -/
theorem claim_C10 (out : String) (p : List Char × List DiagnosticRecord)
    (hp : p ∈ parse_lint_output out) :
    isSub filterChars p.1 = true ∧ p.2 ≠ [] ∧
    ∃ l ∈ pySplitNl out.data, headerCond l = true ∧ p.1 = pyStrip l := by
  have hinv := (parse_inv out).2 p hp
  obtain ⟨⟨l, hl, hh, hf, hk⟩, hne, _⟩ := hinv
  refine ⟨?_, hne, ⟨l, hl, hh, hk⟩⟩
  rw [hk]
  exact isSub_pyStrip filterChars l filterChars_ne_nil filterChars_nonspace hf

/-- C10 witness: the concrete two-diagnostic input. -/
theorem claim_C10_witness :
    isSub filterChars ((parse_lint_output sampleText).headD dfltPair).1 = true ∧
    ((parse_lint_output sampleText).headD dfltPair).2 ≠ [] ∧
    ∃ l ∈ pySplitNl sampleText.data, headerCond l = true ∧
      ((parse_lint_output sampleText).headD dfltPair).1 = pyStrip l :=
  claim_C10 sampleText _ (by decide)

/-- C5 amended: every record the parser produces has severity exactly
`error` or `warning`, and its line and column are parsed from digit
strings (the column group is a non-empty digit string, the rule token is
non-empty); the original bounds `line ≥ 1` and `column ≥ 1` do not hold —
the digit pattern also accepts 0 (see the counterexample). -/
theorem claim_C5_amended (out : String) (p : List Char × List DiagnosticRecord)
    (r : DiagnosticRecord) (hp : p ∈ parse_lint_output out) (hr : r ∈ p.2) :
    (r.severity = errLit ∨ r.severity = warnLit) ∧
    r.col ≠ [] ∧ (∀ c ∈ r.col, c.isDigit = true) ∧ r.rule ≠ [] := by
  have hinv := (parse_inv out).2 p hp
  obtain ⟨hs, hrl, hrw, hc, hcd⟩ := hinv.2.2 r hr
  exact ⟨hs, hc, hcd, hrl⟩

/-- C5 amended witness: the first record of the concrete input. -/
theorem claim_C5_amended_witness :
    ((((parse_lint_output sampleText).headD dfltPair).2.headD rec0).severity = errLit ∨
      (((parse_lint_output sampleText).headD dfltPair).2.headD rec0).severity = warnLit) ∧
    (((parse_lint_output sampleText).headD dfltPair).2.headD rec0).col ≠ [] ∧
    (∀ c ∈ (((parse_lint_output sampleText).headD dfltPair).2.headD rec0).col,
      c.isDigit = true) ∧
    (((parse_lint_output sampleText).headD dfltPair).2.headD rec0).rule ≠ [] :=
  claim_C5_amended sampleText ((parse_lint_output sampleText).headD dfltPair)
    (((parse_lint_output sampleText).headD dfltPair).2.headD rec0)
    (by decide) (by decide)

/-- Folding lines none of which matches the capturing regex leaves the
mapping untouched (only `current_file` may move). -/
theorem noDiag_fold : ∀ (ls : List (List Char)) (st : ParseState),
    (∀ l ∈ ls, diagMatch l = none) →
    (ls.foldl processLine st).errorsByFile = st.errorsByFile := by
  intro ls
  induction ls with
  | nil =>
    intro st h
    rfl
  | cons l t ih =>
    intro st h
    have hl := h l (List.mem_cons_self _ _)
    have hstep : (processLine st l).errorsByFile = st.errorsByFile := by
      unfold processLine
      split
      · split
        · rfl
        · rfl
      · split
        · split
          · split
            case _ rr hdm =>
              rw [hl] at hdm
              exact absurd hdm (by simp)
            · rfl
          · rfl
        · rfl
    have ht := ih (processLine st l) (fun x hx => h x (List.mem_cons_of_mem _ hx))
    rw [List.foldl_cons, ht, hstep]

/-- C9: on any input none of whose lines matches the capturing diagnostic
regex — in particular the empty text — the parser returns the empty
mapping, and `main` takes the `No errors found!` branch, performing no
aggregation. -/
theorem claim_C9 (out : String)
    (h : ∀ l ∈ pySplitNl out.data, diagMatch l = none) :
    parse_lint_output out = [] ∧
    main_outcome (parse_lint_output out) = MainOutcome.noErrorsMessage := by
  have he : parse_lint_output out = [] := by
    unfold parse_lint_output parseFold
    rw [noDiag_fold _ _ h]
    rfl
  exact ⟨he, by rw [he]; rfl⟩

/-- C9 witness: the empty input text. -/
theorem claim_C9_witness :
    parse_lint_output sampleEmpty = [] ∧
    main_outcome (parse_lint_output sampleEmpty) = MainOutcome.noErrorsMessage :=
  claim_C9 sampleEmpty (by decide)

/-- For a record list whose severities are all `error` or `warning`, the
two severity counts add up to the length. -/
theorem count_sev (rs : List DiagnosticRecord)
    (h : ∀ r ∈ rs, r.severity = errLit ∨ r.severity = warnLit) :
    error_count rs + warning_count rs = rs.length := by
  induction rs with
  | nil => rfl
  | cons r t ih =>
    have ht := ih (fun x hx => h x (List.mem_cons_of_mem _ hx))
    have hr := h r (List.mem_cons_self _ _)
    have e1 : (errLit == warnLit) = false := by decide
    have e2 : (warnLit == errLit) = false := by decide
    simp only [error_count, warning_count, List.countP_cons, List.length_cons] at *
    rcases hr with hs | hs <;> rw [hs] <;> simp [e1, e2] <;> omega

/-- The running totals of `print_summary` are the per-file sums. -/
theorem summary_totals_eq (m : List (List Char × List DiagnosticRecord)) :
    summary_totals m = ((m.map (fun p => error_count p.2)).sum,
                        (m.map (fun p => warning_count p.2)).sum) := by
  suffices hgen : ∀ a b, m.foldl
      (fun acc p => (acc.1 + error_count p.2, acc.2 + warning_count p.2)) (a, b) =
      (a + (m.map (fun p => error_count p.2)).sum,
       b + (m.map (fun p => warning_count p.2)).sum) by
    simpa [summary_totals] using hgen 0 0
  induction m with
  | nil =>
    intro a b
    simp
  | cons q t ih =>
    intro a b
    simp only [List.foldl_cons, List.map_cons, List.sum_cons]
    rw [ih]
    simp [Prod.ext_iff]
    constructor <;> omega

/-- Pointwise sum distribution over a mapped list. -/
theorem sum_map_add2 {α : Type} (l : List α) (f g : α → Nat) :
    (l.map (fun a => f a + g a)).sum = (l.map f).sum + (l.map g).sum := by
  induction l with
  | nil => rfl
  | cons x t ih =>
    simp only [List.map_cons, List.sum_cons, ih]
    omega

/-- `insertLe` permutes insertion at the head. -/
theorem perm_insertLe {α : Type} (le : α → α → Bool) (x : α) :
    ∀ (l : List α), (insertLe le x l).Perm (x :: l)
  | [] => by simp [insertLe]
  | y :: t => by
    unfold insertLe
    split
    · exact List.Perm.refl _
    · exact ((perm_insertLe le x t).cons y).trans (List.Perm.swap x y t)

/-- `insSort` is a permutation. -/
theorem perm_insSort {α : Type} (le : α → α → Bool) :
    ∀ (l : List α), (insSort le l).Perm l
  | [] => List.Perm.refl _
  | x :: t => (perm_insertLe le x (insSort le t)).trans ((perm_insSort le t).cons x)

/-- `insertLe` preserves sortedness for a total transitive comparison. -/
theorem pairwise_insertLe {α : Type} (le : α → α → Bool)
    (total : ∀ a b, le a b = true ∨ le b a = true)
    (htrans : ∀ a b c, le a b = true → le b c = true → le a c = true) (x : α) :
    ∀ (l : List α), l.Pairwise (fun a b => le a b = true) →
      (insertLe le x l).Pairwise (fun a b => le a b = true)
  | [], _ => by simp [insertLe]
  | y :: t, h => by
    unfold insertLe
    split
    case _ hxy =>
      refine List.Pairwise.cons ?_ h
      intro z hz
      rcases List.mem_cons.mp hz with rfl | hzt
      · exact hxy
      · exact htrans x y z hxy ((List.pairwise_cons.mp h).1 z hzt)
    case _ hxy =>
      have hyx : le y x = true := by
        rcases total x y with h1 | h1
        · exact absurd h1 (by simpa using hxy)
        · exact h1
      obtain ⟨hy, ht⟩ := List.pairwise_cons.mp h
      refine List.Pairwise.cons ?_ (pairwise_insertLe le total htrans x t ht)
      intro z hz
      have hz2 : z ∈ x :: t := (perm_insertLe le x t).mem_iff.mp hz
      rcases List.mem_cons.mp hz2 with rfl | hzt
      · exact hyx
      · exact hy z hzt

/-- `insSort` sorts with respect to a total transitive comparison. -/
theorem pairwise_insSort {α : Type} (le : α → α → Bool)
    (total : ∀ a b, le a b = true ∨ le b a = true)
    (htrans : ∀ a b c, le a b = true → le b c = true → le a c = true) :
    ∀ (l : List α), (insSort le l).Pairwise (fun a b => le a b = true)
  | [] => by simp [insSort]
  | x :: t => pairwise_insertLe le total htrans x (insSort le t)
      (pairwise_insSort le total htrans t)

/-- C6: for every file of the parsed mapping — as visited by the detailed
view (sorted by record count) and by the summary view (file summaries
sorted by total) — the error count plus the warning count equals the
number of records of that file; and the grand-total line of the summary
shows exactly the sum of the per-file error counts, the sum of the
per-file warning counts, and their combined sum, which equals the total
number of records over all files. -/
theorem claim_C6 (out : String) :
    (∀ p ∈ sortedFiles (parse_lint_output out),
        error_count p.2 + warning_count p.2 = p.2.length) ∧
    (∀ s ∈ fileSummaries (parse_lint_output out),
        s.errors + s.warnings = s.total) ∧
    (summary_totals (parse_lint_output out)).1 =
      ((parse_lint_output out).map (fun p => error_count p.2)).sum ∧
    (summary_totals (parse_lint_output out)).2 =
      ((parse_lint_output out).map (fun p => warning_count p.2)).sum ∧
    (summary_totals (parse_lint_output out)).1 + (summary_totals (parse_lint_output out)).2 =
      ((parse_lint_output out).map (fun p => error_count p.2 + warning_count p.2)).sum ∧
    (summary_totals (parse_lint_output out)).1 + (summary_totals (parse_lint_output out)).2 =
      ((parse_lint_output out).map (fun p => p.2.length)).sum := by
  have hsev : ∀ p ∈ parse_lint_output out,
      error_count p.2 + warning_count p.2 = p.2.length := by
    intro p hp
    exact count_sev p.2 (fun r hr => (((parse_inv out).2 p hp).2.2 r hr).1)
  refine ⟨?_, ?_, ?_, ?_, ?_, ?_⟩
  · intro p hp
    exact hsev p ((perm_insSort _ _).mem_iff.mp hp)
  · intro s hs
    have hs2 : s ∈ (parse_lint_output out).map mkFileSummary :=
      (perm_insSort _ _).mem_iff.mp hs
    obtain ⟨p, hp, rfl⟩ := List.mem_map.mp hs2
    exact hsev p hp
  · rw [summary_totals_eq]
  · rw [summary_totals_eq]
  · rw [summary_totals_eq]
    exact (sum_map_add2 (parse_lint_output out)
      (fun p => error_count p.2) (fun p => warning_count p.2)).symm
  · rw [summary_totals_eq]
    rw [(sum_map_add2 (parse_lint_output out)
      (fun p => error_count p.2) (fun p => warning_count p.2)).symm]
    congr 1
    exact List.map_congr_left hsev

/-- C6 witness: instantiation at the concrete two-diagnostic input. -/
theorem claim_C6_witness :
    error_count ((sortedFiles (parse_lint_output sampleText)).headD dfltPair).2 +
        warning_count ((sortedFiles (parse_lint_output sampleText)).headD dfltPair).2 =
      ((sortedFiles (parse_lint_output sampleText)).headD dfltPair).2.length ∧
    (summary_totals (parse_lint_output sampleText)).1 +
        (summary_totals (parse_lint_output sampleText)).2 =
      ((parse_lint_output sampleText).map (fun p => p.2.length)).sum :=
  ⟨(claim_C6 sampleText).1 _ (by decide), (claim_C6 sampleText).2.2.2.2.2⟩

/-- A whitespace character splits `pySplitWs` into independent halves. -/
theorem splitWsAux_append_ws (ys : List Char) :
    ∀ (s acc : List Char),
      splitWsAux (s ++ ' ' :: ys) acc = splitWsAux s acc ++ splitWsAux ys [] := by
  intro s
  induction s with
  | nil =>
    intro acc
    rcases hacc : acc.isEmpty
    all_goals simp [splitWsAux, hacc, show pyIsSpace ' ' = true from rfl]
  | cons c t ih =>
    intro acc
    simp only [List.cons_append]
    rcases hc : pyIsSpace c
    · simp [splitWsAux, hc, ih]
    · rcases hacc : acc.isEmpty
      all_goals simp [splitWsAux, hc, hacc, ih]

/-- Splitting a whitespace-free token placed on a non-empty accumulator. -/
theorem splitWsAux_token : ∀ (tok : List Char) (c : Char) (acc : List Char),
    (∀ x ∈ tok, pyIsSpace x = false) →
    splitWsAux tok (c :: acc) = [(c :: acc).reverse ++ tok] := by
  intro tok
  induction tok with
  | nil =>
    intro c acc h
    simp [splitWsAux]
  | cons d t ih =>
    intro c acc h
    have hd : pyIsSpace d = false := h d (List.mem_cons_self _ _)
    rw [splitWsAux]
    simp only [hd, Bool.false_eq_true, if_false]
    rw [ih d (c :: acc) (fun x hx => h x (List.mem_cons_of_mem _ hx))]
    simp

/-- `pySplitWs` of a string ending in a space-separated whitespace-free
token yields that token as one extra final piece. -/
theorem pySplitWs_concat_tok (A tok : List Char) (h1 : tok ≠ [])
    (h2 : ∀ x ∈ tok, pyIsSpace x = false) :
    pySplitWs (A ++ ' ' :: tok) = pySplitWs A ++ [tok] := by
  unfold pySplitWs
  rw [splitWsAux_append_ws]
  congr 1
  obtain ⟨d, t, rfl⟩ := List.exists_cons_of_ne_nil h1
  have hd : pyIsSpace d = false := h2 d (List.mem_cons_self _ _)
  rw [splitWsAux]
  simp only [hd, Bool.false_eq_true, if_false]
  rw [splitWsAux_token t d [] (fun x hx => h2 x (List.mem_cons_of_mem _ hx))]
  simp

/-- The rendered text ends in a space followed by the rule token. -/
theorem errText_decomp (r : DiagnosticRecord) :
    errText r = (Nat.toDigits 10 r.line ++ [':'] ++ r.col ++ [' '] ++ r.severity
      ++ [' '] ++ r.message) ++ ' ' :: r.rule := by
  simp [errText, List.append_assoc]

/-- For a record with a non-empty whitespace-free rule token, the last
whitespace-delimited token of the rendered text is exactly the rule. -/
theorem lastTok_errText (r : DiagnosticRecord) (h1 : r.rule ≠ [])
    (h2 : ∀ x ∈ r.rule, pyIsSpace x = false) :
    pySplitWs (errText r) ≠ [] ∧ (pySplitWs (errText r)).getLastD [] = r.rule := by
  rw [errText_decomp, pySplitWs_concat_tok _ _ h1 h2]
  constructor
  · simp
  · exact List.getLastD_concat _ _ _

/-- The category fold keyed on rendered text equals the fold keyed on the
rule field whenever every record renders with its rule as last token. -/
theorem foldl_categories_eq : ∀ (rs : List DiagnosticRecord) (m : Histo),
    (∀ r ∈ rs, pySplitWs (errText r) ≠ [] ∧
      (pySplitWs (errText r)).getLastD [] = r.rule) →
    rs.foldl categoriesStep m = rs.foldl (fun m2 r => bump m2 r.rule) m := by
  intro rs
  induction rs with
  | nil =>
    intro m h
    rfl
  | cons r t ih =>
    intro m h
    have hr := h r (List.mem_cons_self _ _)
    have hstep : categoriesStep m r = bump m r.rule := by
      unfold categoriesStep
      rcases hv : pySplitWs (errText r) with _ | ⟨p, ps⟩
      · exact absurd hv hr.1
      · have hlast : (p :: ps).getLastD [] = r.rule := hv ▸ hr.2
        have hlast2 : (p :: ps).getLast?.getD [] = r.rule := by
          rw [← List.getLastD_eq_getLast?]
          exact hlast
        simp [hv, hlast2]
    simp only [List.foldl_cons, hstep]
    exact ih (bump m r.rule) (fun x hx => h x (List.mem_cons_of_mem _ hx))

/-- C8: for every file of the parser's output, the trailing
whitespace-delimited token of each record's rendered text equals the
record's rule field, and therefore the histogram `print_summary` derives
from the rendered text coincides with the histogram keyed directly on the
rule field. -/
theorem claim_C8 (out : String) (p : List Char × List DiagnosticRecord)
    (hp : p ∈ parse_lint_output out) :
    (∀ r ∈ p.2, (pySplitWs (errText r)).getLastD [] = r.rule) ∧
    categoriesOf p.2 = ruleFieldHistogram p.2 := by
  have hgood := ((parse_inv out).2 p hp).2.2
  have hlast : ∀ r ∈ p.2, pySplitWs (errText r) ≠ [] ∧
      (pySplitWs (errText r)).getLastD [] = r.rule := by
    intro r hr
    have hg := hgood r hr
    exact lastTok_errText r hg.2.1 hg.2.2.1
  refine ⟨fun r hr => (hlast r hr).2, ?_⟩
  unfold categoriesOf ruleFieldHistogram
  exact foldl_categories_eq p.2 [] hlast

/-- C8 witness: the concrete two-diagnostic input. -/
theorem claim_C8_witness :
    (∀ r ∈ ((parse_lint_output sampleText).headD dfltPair).2,
      (pySplitWs (errText r)).getLastD [] = r.rule) ∧
    categoriesOf ((parse_lint_output sampleText).headD dfltPair).2 =
      ruleFieldHistogram ((parse_lint_output sampleText).headD dfltPair).2 :=
  claim_C8 sampleText ((parse_lint_output sampleText).headD dfltPair) (by decide)

/-- Bumping a key raises the total occurrence count by one. -/
theorem bump_sumCounts (m : Histo) (k : List Char) :
    sumCounts (bump m k) = sumCounts m + 1 := by
  induction m with
  | nil => simp [bump, sumCounts]
  | cons q t ih =>
    obtain ⟨k2, n⟩ := q
    by_cases hk : k2 = k
    · simp only [bump, hk, if_true, sumCounts, List.map_cons, List.sum_cons]
      omega
    · simp only [bump, hk, if_false, sumCounts, List.map_cons, List.sum_cons] at *
      omega

/-- The key list after a bump: unchanged for a present key, extended at
the end for a new one. -/
theorem bump_keys (m : Histo) (k : List Char) :
    (bump m k).map Prod.fst =
      if k ∈ m.map Prod.fst then m.map Prod.fst else m.map Prod.fst ++ [k] := by
  induction m with
  | nil => simp [bump]
  | cons q t ih =>
    obtain ⟨k2, n⟩ := q
    by_cases hk : k2 = k
    · subst hk
      simp [bump]
    · have hkk : ¬ k = k2 := fun h => hk h.symm
      by_cases hm : k ∈ t.map Prod.fst
      · simp [bump, hk, ih, hm, hkk]
      · simp [bump, hk, ih, hm, hkk]

/-- Bumping preserves distinctness of the keys. -/
theorem bump_keys_nodup (m : Histo) (k : List Char)
    (h : (m.map Prod.fst).Nodup) : ((bump m k).map Prod.fst).Nodup := by
  rw [bump_keys]
  split
  · exact h
  case _ hnm =>
    exact ((List.perm_append_singleton k (m.map Prod.fst)).nodup_iff).mpr
      (List.nodup_cons.mpr ⟨hnm, h⟩)

/-- The rule histogram always has pairwise-distinct keys. -/
theorem categories_keys_nodup : ∀ (rs : List DiagnosticRecord) (m : Histo),
    (m.map Prod.fst).Nodup → ((rs.foldl categoriesStep m).map Prod.fst).Nodup := by
  intro rs
  induction rs with
  | nil =>
    intro m h
    exact h
  | cons r t ih =>
    intro m h
    rw [List.foldl_cons]
    apply ih
    unfold categoriesStep
    rcases hv : pySplitWs (errText r) with _ | ⟨p, ps⟩
    · simp only [hv]
      exact h
    · simp only [hv]
      exact bump_keys_nodup m _ h

/-- When every record renders with a non-empty token split, the histogram
counts add up to the number of records. -/
theorem categories_sum : ∀ (rs : List DiagnosticRecord) (m : Histo),
    (∀ r ∈ rs, pySplitWs (errText r) ≠ []) →
    sumCounts (rs.foldl categoriesStep m) = sumCounts m + rs.length := by
  intro rs
  induction rs with
  | nil =>
    intro m h
    simp
  | cons r t ih =>
    intro m h
    rw [List.foldl_cons, ih _ (fun x hx => h x (List.mem_cons_of_mem _ hx))]
    have hr := h r (List.mem_cons_self _ _)
    rcases hv : pySplitWs (errText r) with _ | ⟨p, ps⟩
    · exact absurd hv hr
    · have hstep : categoriesStep m r = bump m ((p :: ps).getLastD []) := by
        unfold categoriesStep
        simp only [hv]
      rw [hstep, bump_sumCounts]
      simp only [List.length_cons]
      omega

/-- C7: for every file of the parser's output, the rule histogram has
distinct keys and the sorted histogram is a permutation of it; when there
are at most 10 distinct rules the `... and N more rules` line is absent;
the sorted histogram is in descending count order (so the 10 printed
entries are, and each printed count dominates every collapsed count); and
when more than 10 distinct rules exist the collapsing line reports the
number of remaining rule kinds together with an occurrence sum that
complements the printed top-10 counts to the file's total record count. -/
theorem claim_C7 (out : String) (p : List Char × List DiagnosticRecord)
    (hp : p ∈ parse_lint_output out) :
    ((categoriesOf p.2).map Prod.fst).Nodup ∧
    (sortedCategories (categoriesOf p.2)).length = (categoriesOf p.2).length ∧
    ((categoriesOf p.2).length ≤ 10 → moreRulesLine (categoriesOf p.2) = none) ∧
    (sortedCategories (categoriesOf p.2)).Pairwise (fun a b => b.2 ≤ a.2) ∧
    (∀ a ∈ (sortedCategories (categoriesOf p.2)).take 10,
      ∀ b ∈ (sortedCategories (categoriesOf p.2)).drop 10, b.2 ≤ a.2) ∧
    (10 < (categoriesOf p.2).length →
      moreRulesLine (categoriesOf p.2) =
        some ((categoriesOf p.2).length - 10,
          sumCounts ((sortedCategories (categoriesOf p.2)).drop 10))) ∧
    sumCounts ((sortedCategories (categoriesOf p.2)).take 10) +
      sumCounts ((sortedCategories (categoriesOf p.2)).drop 10) = p.2.length := by
  have hgood := ((parse_inv out).2 p hp).2.2
  have hne : ∀ r ∈ p.2, pySplitWs (errText r) ≠ [] := by
    intro r hr
    exact (lastTok_errText r (hgood r hr).2.1 (hgood r hr).2.2.1).1
  have hperm : (sortedCategories (categoriesOf p.2)).Perm (categoriesOf p.2) :=
    perm_insSort _ _
  have hlen := hperm.length_eq
  have hsortedB : (sortedCategories (categoriesOf p.2)).Pairwise
      (fun a b : List Char × Nat => decide (b.2 ≤ a.2) = true) := by
    apply pairwise_insSort
    · intro a b
      rcases Nat.le_total b.2 a.2 with h | h
      · exact Or.inl (decide_eq_true h)
      · exact Or.inr (decide_eq_true h)
    · intro a b c h1 h2
      exact decide_eq_true (Nat.le_trans (of_decide_eq_true h2) (of_decide_eq_true h1))
  have hsorted : (sortedCategories (categoriesOf p.2)).Pairwise
      (fun a b : List Char × Nat => b.2 ≤ a.2) :=
    hsortedB.imp (fun h => of_decide_eq_true h)
  have hsum_cats : sumCounts (categoriesOf p.2) = p.2.length := by
    have hc := categories_sum p.2 [] hne
    simpa [categoriesOf, sumCounts] using hc
  have hsum_sorted : sumCounts (sortedCategories (categoriesOf p.2)) =
      sumCounts (categoriesOf p.2) := by
    unfold sumCounts
    exact (hperm.map Prod.snd).sum_eq
  have hsplit : sumCounts ((sortedCategories (categoriesOf p.2)).take 10) +
      sumCounts ((sortedCategories (categoriesOf p.2)).drop 10) =
      sumCounts (sortedCategories (categoriesOf p.2)) := by
    unfold sumCounts
    rw [List.map_take, List.map_drop]
    exact List.sum_take_add_sum_drop _ _
  refine ⟨?_, hlen, ?_, hsorted, ?_, ?_, ?_⟩
  · exact categories_keys_nodup p.2 [] (by simp)
  · intro h10
    have hno : ¬ 10 < (sortedCategories (categoriesOf p.2)).length := by omega
    simp [moreRulesLine, hno]
  · have hP := hsorted
    rw [← List.take_append_drop 10 (sortedCategories (categoriesOf p.2))] at hP
    exact (List.pairwise_append.mp hP).2.2
  · intro h10
    have hyes : 10 < (sortedCategories (categoriesOf p.2)).length := by omega
    simp only [moreRulesLine, hyes, if_true]
    rw [hlen]
  · rw [hsplit, hsum_sorted, hsum_cats]

/-- C7 witness: the concrete two-diagnostic input (two distinct rules, so
the collapsing line is absent and the sums agree). -/
theorem claim_C7_witness :
    ((categoriesOf ((parse_lint_output sampleText).headD dfltPair).2).length ≤ 10 →
      moreRulesLine (categoriesOf ((parse_lint_output sampleText).headD dfltPair).2) = none) ∧
    sumCounts ((sortedCategories (categoriesOf ((parse_lint_output sampleText).headD dfltPair).2)).take 10) +
      sumCounts ((sortedCategories (categoriesOf ((parse_lint_output sampleText).headD dfltPair).2)).drop 10) =
      ((parse_lint_output sampleText).headD dfltPair).2.length :=
  ⟨((claim_C7 sampleText ((parse_lint_output sampleText).headD dfltPair) (by decide)).2.2.1),
   ((claim_C7 sampleText ((parse_lint_output sampleText).headD dfltPair) (by decide)).2.2.2.2.2.2)⟩
